import Mathlib

/-!
Shallow embedding of the dxfnest packing kernel (`src/dxfnest.py`).

Coordinates are modelled as integers: every constant occurring in the program and in the claims is integral, and the placement logic uses only ordered-ring comparisons and additions, so the embedding is faithful on those runs. The mutable `position` attribute that
Python stores on each `Part` object is modelled as a global assignment log
`PosLog` (newest entry first): reading `part.position` corresponds to
`posOf log index`, and every assignment prepends an entry. A `Part` itself is
reduced to its bounding box; the list `ctx : List BBox` plays the role of the
Python `parts` array, and parts are identified by their index in it.

Randomness (the Python `random` module) is modelled by an oracle `Rng`: an
infinite stream of naturals. Each stochastic primitive consumes draws from the
stream; `random.randint` with an empty range and `random.sample` with too few
elements are fallible (they raise in Python), hence return `Option`.
-/

set_option maxRecDepth 100000
set_option maxHeartbeats 2000000

namespace Dxfnest

/-- A candidate or committed placement offset, the Python pair `(x_offset, y_offset)`. -/
abbrev Pos := ℤ × ℤ

/-- Axis-aligned bounding rectangle, the Python tuple `(min_x, min_y, max_x, max_y)`. -/
structure BBox where
  min_x : ℤ
  min_y : ℤ
  max_x : ℤ
  max_y : ℤ
deriving DecidableEq

/-- Default bounding box used for out-of-range index lookups (never reached on
the runs of the program, where indices are always in range). -/
def bb0 : BBox := ⟨0, 0, 0, 0⟩

/-- The global log of assignments to the `position` fields of the parts,
newest first.  Entry `(i, p)` records that `parts[i].position = p` was executed. -/
abbrev PosLog := List (ℕ × Pos)

/-- The current value of `parts[i].position`: the most recent assignment,
or `none` when the attribute was never set. -/
def posOf (σ : PosLog) (i : ℕ) : Option Pos :=
  (σ.find? (fun e => e.1 == i)).map (fun e => e.2)

/-- The Python `Sheet`: width, height and the list of accepted parts
(by index into the parts array), in acceptance order. -/
structure Sheet where
  width : ℤ
  height : ℤ
  parts : List ℕ
deriving DecidableEq

/-- Translation of a bounding box by an offset, as computed inline in
Python `Sheet.check_overlap` (`rect1`, `rect2`). -/
def translatedRect (bb : BBox) (p : Pos) : BBox :=
  ⟨bb.min_x + p.1, bb.min_y + p.2, bb.max_x + p.1, bb.max_y + p.2⟩

/-- Python `Sheet.check_overlap(part, position, placed_part)`: the part being
tested contributes `rect1` (its box translated by the candidate position), the
already placed part contributes `rect2` (its box translated by its committed
`position`, read from the assignment log). -/
def checkOverlap (ctx : List BBox) (σ : PosLog) (bb : BBox) (p : Pos) (j : ℕ) : Bool :=
  let r1 := translatedRect bb p
  let r2 := translatedRect (ctx.getD j bb0) ((posOf σ j).getD (0, 0))
  !(decide (r1.max_x ≤ r2.min_x) || decide (r1.min_x ≥ r2.max_x) ||
    decide (r1.max_y ≤ r2.min_y) || decide (r1.min_y ≥ r2.max_y))

/-- Python `Sheet.can_place(part, position)`: bounds test first, then an
overlap test against every already placed part. -/
def canPlace (ctx : List BBox) (σ : PosLog) (s : Sheet) (bb : BBox) (p : Pos) : Bool :=
  if bb.min_x + p.1 < 0 ∨ bb.max_x + p.1 > s.width ∨
     bb.min_y + p.2 < 0 ∨ bb.max_y + p.2 > s.height then false
  else s.parts.all (fun j => !(checkOverlap ctx σ bb p j))

/-- Python `Sheet.add_part(part, position)`: on success it assigns
`part.position` (one new log entry), appends the part and returns true;
otherwise it returns false with no state change. -/
def addPart (ctx : List BBox) (s : Sheet) (i : ℕ) (p : Pos) (σ : PosLog) :
    Bool × Sheet × PosLog :=
  if canPlace ctx σ s (ctx.getD i bb0) p then
    (true, { s with parts := s.parts ++ [i] }, (i, p) :: σ)
  else
    (false, s, σ)

/-- Cast of a lattice point to a rational placement offset. -/
def castPos (c : ℕ × ℕ) : Pos := ((c.1 : ℤ), (c.2 : ℤ))

/-- The candidate lattice scanned by both `fitness` and `nest_parts`:
Python `for x in range(0, sheet_width, 10): for y in range(0, sheet_height, 10)`,
flattened in the same row-major order (outer `x` ascending, inner `y`
ascending). `range(0, w, 10)` has `(w + 9) / 10` elements. -/
def latticeCands (W H : ℕ) : List (ℕ × ℕ) :=
  (List.range' 0 ((W + 9) / 10) 10).flatMap
    (fun x => (List.range' 0 ((H + 9) / 10) 10).map (fun y => (x, y)))

/-- The shared inner scan of `fitness` and `nest_parts`: try `add_part` at each
candidate in order, stopping at the first success (the nested loop with the
two `break` statements). -/
def placeScan (ctx : List BBox) (i : ℕ) :
    List (ℕ × ℕ) → Sheet → PosLog → Bool × Sheet × PosLog
  | [], s, σ => (false, s, σ)
  | c :: rest, s, σ =>
    let r := addPart ctx s i (castPos c) σ
    if r.1 then r else placeScan ctx i rest r.2.1 r.2.2

/-- The loop body of Python `fitness(order)`: place each part of the order in
turn on the accumulating sheet; an unplaceable part short-circuits with the
infinite sentinel (modelled as `none`), otherwise the count of placed parts
is returned. -/
def fitGo (ctx : List BBox) (W H : ℕ) :
    List ℕ → Sheet → PosLog → Option ℕ × PosLog
  | [], s, σ => (some s.parts.length, σ)
  | i :: rest, s, σ =>
    let r := placeScan ctx i (latticeCands W H) s σ
    if r.1 then fitGo ctx W H rest r.2.1 r.2.2 else (none, r.2.2)

/-- Python `fitness(order)`: builds a fresh sheet and runs the placement loop.
The assignment log is global state threaded through the call. -/
def fitness (ctx : List BBox) (W H : ℕ) (order : List ℕ) (σ : PosLog) :
    Option ℕ × PosLog :=
  fitGo ctx W H order ⟨(W : ℤ), (H : ℤ), []⟩ σ

/-- The fitness value of an order; by `fitness_fst` below the value component
of `fitness` does not depend on the incoming assignment log. -/
def fitVal (ctx : List BBox) (W H : ℕ) (order : List ℕ) : Option ℕ :=
  (fitness ctx W H order []).1

/-! ### Randomness oracle -/

/-- The random oracle: an infinite stream of naturals standing for the draws
of the Python `random` module. -/
abbrev Rng := ℕ → ℕ

/-- Take one draw from the oracle. -/
def draw (g : Rng) : ℕ × Rng := (g 0, fun i => g (i + 1))

/-- The all-zero oracle, used for concrete runs. -/
def rng0 : Rng := fun _ => 0

/-- Python `random.randint(lo, hi)`: both bounds inclusive; raises
(`none`) when the range is empty. -/
def randIntNat (lo hi : ℕ) (g : Rng) : Option (ℕ × Rng) :=
  if hi < lo then none
  else
    let d := draw g
    some (lo + d.1 % (hi - lo + 1), d.2)

/-- Python `random.random() < mutation_rate`: a Bernoulli draw, decided by the
oracle (odd draw = below the rate). -/
def randBool (g : Rng) : Bool × Rng :=
  let d := draw g
  (d.1 % 2 == 1, d.2)

/-- Python `random.sample(l, 2)`: an ordered pair of entries of `l` at two
distinct positions; raises (`none`) when `l` has fewer than two elements. -/
def sample2 {α : Type} [Inhabited α] (l : List α) (g : Rng) :
    Option ((α × α) × Rng) :=
  if l.length < 2 then none
  else
    let d1 := draw g
    let d2 := draw d1.2
    let i := d1.1 % l.length
    let j0 := d2.1 % (l.length - 1)
    let j := if i ≤ j0 then j0 + 1 else j0
    some ((l.getD i default, l.getD j default), d2.2)

/-- Helper for `random.sample(range(n), n)`: repeatedly pick one of the
remaining elements, without replacement. -/
def samplePermGo : ℕ → List ℕ → Rng → List ℕ × Rng
  | 0, _, g => ([], g)
  | fuel + 1, rem, g =>
    let d := draw g
    let i := d.1 % rem.length
    let r := samplePermGo fuel (rem.eraseIdx i) d.2
    (rem.getD i 0 :: r.1, r.2)

/-- Python `random.sample(range(n), n)`: a random permutation of `[0, n)`. -/
def samplePerm (n : ℕ) (g : Rng) : List ℕ × Rng :=
  samplePermGo n (List.range n) g

/-! ### Genetic algorithm -/

/-- Python `initialize_population()`: `population_size` random permutations. -/
def initPop : ℕ → ℕ → Rng → List (List ℕ) × Rng
  | 0, _, g => ([], g)
  | p + 1, n, g =>
    let a := samplePerm n g
    let r := initPop p n a.2
    (a.1 :: r.1, r.2)

/-- Python `crossover(parent1, parent2)`: prefix of `parent1` up to a random
cut point in `[1, len - 1]`, then the elements of `parent2` not already taken.
For `len < 2` the cut point range is empty and `random.randint` raises. -/
def crossover (p1 p2 : List ℕ) (g : Rng) : Option (List ℕ × Rng) :=
  match randIntNat 1 (p1.length - 1) g with
  | none => none
  | some (pt, g1) =>
    some (p1.take pt ++ p2.filter (fun x => !((p1.take pt).elem x)), g1)

/-- Swap the entries of `l` at positions `i` and `j`
(Python `order[i], order[j] = order[j], order[i]`). -/
def swapAt2 (l : List ℕ) (i j : ℕ) : List ℕ :=
  (l.set i (l.getD j 0)).set j (l.getD i 0)

/-- Python `mutate(order)`: with oracle-decided probability, swap two distinct
random positions; `random.sample` raises (`none`) when the order has fewer
than two entries. -/
def mutate (ord : List ℕ) (g : Rng) : Option (List ℕ × Rng) :=
  let b := randBool g
  if b.1 then
    match sample2 (List.range ord.length) b.2 with
    | none => none
    | some (ij, g2) => some (swapAt2 ord ij.1 ij.2, g2)
  else
    some (ord, b.2)

/-- The reproduction loop of `genetic_algorithm`: `population_size // 2`
rounds; each round samples two parents from the top ten of the sorted
population, produces two crossover children and mutates each. -/
def reproduce (pool : List (List ℕ)) : ℕ → Rng → Option (List (List ℕ) × Rng)
  | 0, g => some ([], g)
  | c + 1, g =>
    match sample2 pool g with
    | none => none
    | some (par, g1) =>
      match crossover par.1 par.2 g1 with
      | none => none
      | some (c1, g2) =>
        match crossover par.2 par.1 g2 with
        | none => none
        | some (c2, g3) =>
          match mutate c1 g3 with
          | none => none
          | some (m1, g4) =>
            match mutate c2 g4 with
            | none => none
            | some (m2, g5) =>
              (reproduce pool c g5).map (fun r => (m1 :: m2 :: r.1, r.2))

/-- Python `population.sort(key=fitness)` computes the key of every individual
once, in list order, threading the global assignment log. -/
def computeKeys (ctx : List BBox) (W H : ℕ) :
    List (List ℕ) → PosLog → List (List ℕ × Option ℕ) × PosLog
  | [], σ => ([], σ)
  | o :: rest, σ =>
    let a := fitness ctx W H o σ
    let r := computeKeys ctx W H rest a.2
    ((o, a.1) :: r.1, r.2)

/-- The ordering on fitness values: finite values by magnitude, the infinite
sentinel `none` greater than everything. -/
def fitLe (a b : Option ℕ) : Prop :=
  match a, b with
  | _, none => True
  | none, some _ => False
  | some k, some m => k ≤ m

instance fitLeDec : DecidableRel fitLe := fun a b =>
  match a, b with
  | none, none => isTrue trivial
  | some _, none => isTrue trivial
  | none, some _ => isFalse (fun h => h)
  | some k, some m => inferInstanceAs (Decidable (k ≤ m))

/-- The sorting relation on keyed individuals: compare fitness keys. -/
def keyLe (p q : List ℕ × Option ℕ) : Prop := fitLe p.2 q.2

instance keyLeDec : DecidableRel keyLe := fun p q => fitLeDec p.2 q.2

/-- Sort the population ascending by the computed fitness keys. -/
def sortPop (keys : List (List ℕ × Option ℕ)) : List (List ℕ) :=
  (List.insertionSort keyLe keys).map (fun p => p.1)

/-- The generation loop of `genetic_algorithm`, instrumented with the final
population and an early-convergence flag. Each iteration sorts by fitness,
re-evaluates the best individual, breaks early when it equals the part count,
and otherwise reproduces. On budget exhaustion the population is the last
(unsorted) reproduced generation. -/
structure GaOut where
  pop : List (List ℕ)
  early : Bool
  log : PosLog
  rng : Rng

def gaLoopAux (ctx : List BBox) (W H psize : ℕ) :
    ℕ → List (List ℕ) → PosLog → Rng → Option GaOut
  | 0, pop, σ, g => some ⟨pop, false, σ, g⟩
  | gens + 1, pop, σ, g =>
    let ks := computeKeys ctx W H pop σ
    let sorted := sortPop ks.1
    let best := fitness ctx W H (sorted.getD 0 []) ks.2
    if best.1 = some ctx.length then some ⟨sorted, true, best.2, g⟩
    else
      match reproduce (sorted.take 10) (psize / 2) g with
      | none => none
      | some (nextPop, g1) => gaLoopAux ctx W H psize gens nextPop best.2 g1

/-- Python `genetic_algorithm(sheet_width, sheet_height, parts, ...)`: returns
the first individual of the final population, together with the global state.
`none` models an uncaught exception from the random primitives. -/
def geneticAlgorithm (ctx : List BBox) (W H psize gens : ℕ) (σ : PosLog)
    (g : Rng) : Option (List ℕ × PosLog × Rng) :=
  let p0 := initPop psize ctx.length g
  (gaLoopAux ctx W H psize gens p0.1 σ p0.2).map
    (fun r => (r.pop.getD 0 [], r.log, r.rng))

/-- The final replay loop of `nest_parts`: place the parts in the optimized
order with the same step-10 scan; a part that fails everywhere is skipped
with no record. -/
def replayGo (ctx : List BBox) (W H : ℕ) :
    List ℕ → Sheet → PosLog → Sheet × PosLog
  | [], s, σ => (s, σ)
  | i :: rest, s, σ =>
    let r := placeScan ctx i (latticeCands W H) s σ
    replayGo ctx W H rest r.2.1 r.2.2

/-- Python `nest_parts(sheet_width, sheet_height, part_files)`: run the
genetic algorithm with its default parameters (population 50, 100
generations), then replay the best order onto a fresh sheet. The result is
the sheet alone, plus the global assignment log. -/
def nestParts (ctx : List BBox) (W H : ℕ) (σ : PosLog) (g : Rng) :
    Option (Sheet × PosLog) :=
  (geneticAlgorithm ctx W H 50 100 σ g).map
    (fun r => replayGo ctx W H r.1 ⟨(W : ℤ), (H : ℤ), []⟩ r.2.1)

/-! ## Basic lemmas about the placement engine -/

/-- The specification-level separation predicate: one rectangle is entirely to
the left of, right of, above or below the other, boundary contact allowed. -/
def rectsDisjoint (r1 r2 : BBox) : Prop :=
  r1.max_x ≤ r2.min_x ∨ r1.min_x ≥ r2.max_x ∨ r1.max_y ≤ r2.min_y ∨ r1.min_y ≥ r2.max_y

lemma checkOverlap_eq_false_iff (ctx : List BBox) (σ : PosLog) (bb : BBox)
    (p : Pos) (j : ℕ) :
    checkOverlap ctx σ bb p j = false ↔
      rectsDisjoint (translatedRect bb p)
        (translatedRect (ctx.getD j bb0) ((posOf σ j).getD (0, 0))) := by
  unfold checkOverlap rectsDisjoint
  simp only [Bool.not_eq_false', Bool.or_eq_true, decide_eq_true_eq]
  tauto

lemma canPlace_iff (ctx : List BBox) (σ : PosLog) (s : Sheet) (bb : BBox) (p : Pos) :
    canPlace ctx σ s bb p = true ↔
      (0 ≤ bb.min_x + p.1 ∧ bb.max_x + p.1 ≤ s.width ∧
       0 ≤ bb.min_y + p.2 ∧ bb.max_y + p.2 ≤ s.height) ∧
      ∀ j ∈ s.parts, checkOverlap ctx σ bb p j = false := by
  unfold canPlace
  split
  next h =>
    simp only [Bool.false_eq_true, false_iff, not_and]
    intro hb
    rcases h with h | h | h | h <;>
      [exact absurd hb.1 (by linarith); exact absurd hb.2.1 (by linarith);
       exact absurd hb.2.2.1 (by linarith); exact absurd hb.2.2.2 (by linarith)]
  next h =>
    push_neg at h
    simp only [List.all_eq_true, Bool.not_eq_true']
    exact ⟨fun ha => ⟨⟨h.1, h.2.1, h.2.2.1, h.2.2.2⟩, ha⟩, fun ha => ha.2⟩

lemma bool_ne_true {b : Bool} (h : b = false) : ¬(b = true) := by
  simp [h]

lemma addPart_pos {ctx : List BBox} {s : Sheet} {i : ℕ} {p : Pos} {σ : PosLog}
    (h : canPlace ctx σ s (ctx.getD i bb0) p = true) :
    addPart ctx s i p σ = (true, { s with parts := s.parts ++ [i] }, (i, p) :: σ) := by
  unfold addPart
  rw [if_pos h]

lemma addPart_neg {ctx : List BBox} {s : Sheet} {i : ℕ} {p : Pos} {σ : PosLog}
    (h : canPlace ctx σ s (ctx.getD i bb0) p = false) :
    addPart ctx s i p σ = (false, s, σ) := by
  unfold addPart
  rw [if_neg (bool_ne_true h)]

lemma posOf_cons_self (σ : PosLog) (i : ℕ) (p : Pos) :
    posOf ((i, p) :: σ) i = some p := by
  simp [posOf, List.find?_cons_of_pos]

/-- First-success characterization of the candidate scan: since a failed
`add_part` leaves the state unchanged, the scan commits exactly the first
candidate that `can_place` accepts, judged against the unchanged state. -/
lemma placeScan_eq (ctx : List BBox) (i : ℕ) :
    ∀ (cands : List (ℕ × ℕ)) (s : Sheet) (σ : PosLog),
      placeScan ctx i cands s σ =
        match cands.find? (fun c => canPlace ctx σ s (ctx.getD i bb0) (castPos c)) with
        | some c => (true, { s with parts := s.parts ++ [i] }, (i, castPos c) :: σ)
        | none => (false, s, σ)
  | [], s, σ => rfl
  | c :: rest, s, σ => by
    rcases h : canPlace ctx σ s (ctx.getD i bb0) (castPos c) with _ | _
    · rw [List.find?_cons_of_neg (p := fun c => canPlace ctx σ s (ctx.getD i bb0) (castPos c))
        rest (bool_ne_true h)]
      simp only [placeScan, addPart_neg h]
      exact placeScan_eq ctx i rest s σ
    · rw [List.find?_cons_of_pos (p := fun c => canPlace ctx σ s (ctx.getD i bb0) (castPos c))
        rest h]
      simp only [placeScan, addPart_pos h, if_true]

lemma placeScan_false {ctx : List BBox} {i : ℕ} {cands : List (ℕ × ℕ)}
    {s : Sheet} {σ : PosLog}
    (h : (placeScan ctx i cands s σ).1 = false) :
    placeScan ctx i cands s σ = (false, s, σ) ∧
      ∀ c ∈ cands, canPlace ctx σ s (ctx.getD i bb0) (castPos c) = false := by
  rw [placeScan_eq] at h ⊢
  rcases hf : cands.find? (fun c => canPlace ctx σ s (ctx.getD i bb0) (castPos c)) with _ | c
  · refine ⟨rfl, fun c hc => ?_⟩
    have := List.find?_eq_none.mp hf c hc
    simpa using this
  · rw [hf] at h; simp at h

lemma placeScan_true {ctx : List BBox} {i : ℕ} {cands : List (ℕ × ℕ)}
    {s s2 : Sheet} {σ σ2 : PosLog}
    (h : placeScan ctx i cands s σ = (true, s2, σ2)) :
    ∃ c, cands.find? (fun c => canPlace ctx σ s (ctx.getD i bb0) (castPos c)) = some c ∧
      s2 = { s with parts := s.parts ++ [i] } ∧ σ2 = (i, castPos c) :: σ := by
  rw [placeScan_eq] at h
  rcases hf : cands.find? (fun c => canPlace ctx σ s (ctx.getD i bb0) (castPos c)) with _ | c
  · rw [hf] at h; simp at h
  · rw [hf] at h
    simp only [Prod.mk.injEq] at h
    exact ⟨c, rfl, h.2.1.symm, h.2.2.symm⟩

/-! ## Independence of the fitness value from the incoming assignment log

Inside one `fitness` evaluation the sheet starts empty and every part on it
was placed during that evaluation, so its position is read from the entries
prepended during the evaluation, never from the incoming log. -/

/-- Every part on the sheet has a log entry in the local block `Δ`. -/
def coveredBy (s : Sheet) (Δ : PosLog) : Prop :=
  ∀ i ∈ s.parts, (Δ.find? (fun e => e.1 == i)).isSome = true

lemma posOf_append_covered {Δ : PosLog} {i : ℕ}
    (h : (Δ.find? (fun e => e.1 == i)).isSome = true) (σ : PosLog) :
    posOf (Δ ++ σ) i = posOf Δ i := by
  unfold posOf
  rw [List.find?_append]
  obtain ⟨e, he⟩ := Option.isSome_iff_exists.mp h
  rw [he]
  rfl

lemma checkOverlap_append {Δ : PosLog} {j : ℕ}
    (h : (Δ.find? (fun e => e.1 == j)).isSome = true)
    (ctx : List BBox) (σ : PosLog) (bb : BBox) (p : Pos) :
    checkOverlap ctx (Δ ++ σ) bb p j = checkOverlap ctx Δ bb p j := by
  unfold checkOverlap
  rw [posOf_append_covered h]

lemma list_all_congr {α : Type} {l : List α} {f g : α → Bool}
    (h : ∀ a ∈ l, f a = g a) : l.all f = l.all g := by
  induction l with
  | nil => rfl
  | cons a l ih =>
    simp only [List.all_cons, h a (by simp), ih (fun b hb => h b (by simp [hb]))]

lemma canPlace_append {s : Sheet} {Δ : PosLog} (h : coveredBy s Δ)
    (ctx : List BBox) (σ : PosLog) (bb : BBox) (p : Pos) :
    canPlace ctx (Δ ++ σ) s bb p = canPlace ctx Δ s bb p := by
  unfold canPlace
  split
  · rfl
  · exact list_all_congr (fun j hj => by rw [checkOverlap_append (h j hj)])

lemma coveredBy_extend {s : Sheet} {Δ : PosLog} (h : coveredBy s Δ)
    (i : ℕ) (p : Pos) :
    coveredBy { s with parts := s.parts ++ [i] } ((i, p) :: Δ) := by
  intro j hj
  rcases List.mem_append.mp hj with hj | hj
  · rcases hbeq : (i == j) with _ | _
    · rw [List.find?_cons_of_neg (p := fun e => e.1 == j) Δ (bool_ne_true hbeq)]
      exact h j hj
    · rw [List.find?_cons_of_pos (p := fun e => e.1 == j) Δ hbeq]
      rfl
  · simp only [List.mem_singleton] at hj
    subst hj
    rw [List.find?_cons_of_pos]
    · rfl
    · exact beq_self_eq_true j

lemma placeScan_shift (ctx : List BBox) (i : ℕ) :
    ∀ (cands : List (ℕ × ℕ)) (s : Sheet) (Δ : PosLog), coveredBy s Δ →
      ∃ b s2 Δ2, coveredBy s2 Δ2 ∧
        ∀ σ, placeScan ctx i cands s (Δ ++ σ) = (b, s2, Δ2 ++ σ)
  | [], s, Δ, h => ⟨false, s, Δ, h, fun _ => rfl⟩
  | c :: rest, s, Δ, h => by
    rcases hc : canPlace ctx Δ s (ctx.getD i bb0) (castPos c) with _ | _
    · obtain ⟨b, s2, Δ2, h2, hs⟩ := placeScan_shift ctx i rest s Δ h
      refine ⟨b, s2, Δ2, h2, fun σ => ?_⟩
      have hcσ : canPlace ctx (Δ ++ σ) s (ctx.getD i bb0) (castPos c) = false := by
        rw [canPlace_append h]; exact hc
      simp only [placeScan, addPart_neg hcσ]
      exact hs σ
    · refine ⟨true, { s with parts := s.parts ++ [i] }, (i, castPos c) :: Δ,
        coveredBy_extend h i (castPos c), fun σ => ?_⟩
      have hcσ : canPlace ctx (Δ ++ σ) s (ctx.getD i bb0) (castPos c) = true := by
        rw [canPlace_append h]; exact hc
      simp only [placeScan, addPart_pos hcσ, if_true]
      rfl

lemma fitGo_shift (ctx : List BBox) (W H : ℕ) :
    ∀ (rest : List ℕ) (s : Sheet) (Δ : PosLog), coveredBy s Δ →
      ∃ v Δ2, ∀ σ, fitGo ctx W H rest s (Δ ++ σ) = (v, Δ2 ++ σ)
  | [], s, Δ, _ => ⟨some s.parts.length, Δ, fun _ => rfl⟩
  | i :: rest, s, Δ, h => by
    obtain ⟨b, s2, Δ2, h2, hs⟩ := placeScan_shift ctx i (latticeCands W H) s Δ h
    rcases b with _ | _
    · exact ⟨none, Δ2, fun σ => by simp [fitGo, hs σ]⟩
    · obtain ⟨v, Δ3, hv⟩ := fitGo_shift ctx W H rest s2 Δ2 h2
      refine ⟨v, Δ3, fun σ => ?_⟩
      simp only [fitGo, hs σ, if_true]
      exact hv σ

lemma fitness_shift (ctx : List BBox) (W H : ℕ) (order : List ℕ) :
    ∃ v Δ, ∀ σ, fitness ctx W H order σ = (v, Δ ++ σ) := by
  obtain ⟨v, Δ, hv⟩ := fitGo_shift ctx W H order ⟨(W : ℤ), (H : ℤ), []⟩ []
    (fun i hi => absurd hi (List.not_mem_nil i))
  exact ⟨v, Δ, fun σ => hv σ⟩

lemma fitness_fst (ctx : List BBox) (W H : ℕ) (order : List ℕ) (σ : PosLog) :
    (fitness ctx W H order σ).1 = fitVal ctx W H order := by
  obtain ⟨v, Δ, hv⟩ := fitness_shift ctx W H order
  rw [hv σ]
  unfold fitVal
  rw [hv []]

/-! ## Claim C2: the fitness value is the sentinel or exactly the part count -/

lemma fitGo_val (ctx : List BBox) (W H : ℕ) :
    ∀ (rest : List ℕ) (s : Sheet) (σ : PosLog),
      (fitGo ctx W H rest s σ).1 = none ∨
        (fitGo ctx W H rest s σ).1 = some (s.parts.length + rest.length)
  | [], _, _ => Or.inr (by simp [fitGo])
  | i :: rest, s, σ => by
    rcases hb : placeScan ctx i (latticeCands W H) s σ with ⟨b, s2, σ2⟩
    rcases b with _ | _
    · left
      simp [fitGo, hb]
    · obtain ⟨c, _, hs2, _⟩ := placeScan_true hb
      rcases fitGo_val ctx W H rest s2 σ2 with h | h
      · left
        simpa [fitGo, hb] using h
      · right
        have : (fitGo ctx W H (i :: rest) s σ).1 = (fitGo ctx W H rest s2 σ2).1 := by
          simp [fitGo, hb]
        rw [this, h, hs2]
        simp only [List.length_append, List.length_cons, List.length_nil]
        congr 1
        omega

/-- C2: for every valid permutation of the part indices, the fitness value is
either the infinite sentinel (some part could not be placed on the scanned
lattice) or exactly the number of parts; no other finite value occurs. -/
theorem fitness_all_or_nothing (ctx : List BBox) (W H : ℕ) (order : List ℕ)
    (σ : PosLog) (h : order.Perm (List.range ctx.length)) :
    (fitness ctx W H order σ).1 = none ∨
      (fitness ctx W H order σ).1 = some ctx.length := by
  have hlen : order.length = ctx.length := by simpa using h.length_eq
  rcases fitGo_val ctx W H order ⟨(W : ℤ), (H : ℤ), []⟩ σ with h2 | h2
  · exact Or.inl h2
  · right
    rw [show fitness ctx W H order σ = fitGo ctx W H order ⟨(W : ℤ), (H : ℤ), []⟩ σ
      from rfl, h2]
    simp [hlen]

/-- Concrete instance of C2: a single 5-by-5 part on a 30-by-21 sheet. -/
theorem fitness_all_or_nothing_witness :
    (fitness [⟨0, 0, 5, 5⟩] 30 21 [0] []).1 = none ∨
      (fitness [⟨0, 0, 5, 5⟩] 30 21 [0] []).1 = some 1 :=
  fitness_all_or_nothing [⟨0, 0, 5, 5⟩] 30 21 [0] [] (by decide)

/-! ## Claims C6 and C9: add_part semantics and the overlap test -/

/-- C6: add_part is fully determined by can_place. On failure it returns
false with no change to the sheet or to the assignment log (the position
field of the part is untouched); on success it records exactly one position
assignment, appends the part, and returns true. -/
theorem add_part_can_place_semantics (ctx : List BBox) (s : Sheet) (i : ℕ)
    (p : Pos) (σ : PosLog) :
    (canPlace ctx σ s (ctx.getD i bb0) p = false →
      addPart ctx s i p σ = (false, s, σ)) ∧
    (canPlace ctx σ s (ctx.getD i bb0) p = true →
      addPart ctx s i p σ = (true, { s with parts := s.parts ++ [i] }, (i, p) :: σ) ∧
        posOf ((i, p) :: σ) i = some p) :=
  ⟨fun h => addPart_neg h, fun h => ⟨addPart_pos h, posOf_cons_self σ i p⟩⟩

/-- Concrete instance of C6: accepting a 5-by-5 part at the origin of an
empty 30-by-21 sheet. -/
theorem add_part_can_place_semantics_witness :
    addPart [⟨0, 0, 5, 5⟩] ⟨30, 21, []⟩ 0 (0, 0) [] =
      (true, ⟨30, 21, [0]⟩, [(0, (0, 0))]) ∧
      posOf [(0, (0, 0))] 0 = some (0, 0) :=
  (add_part_can_place_semantics [⟨0, 0, 5, 5⟩] ⟨30, 21, []⟩ 0 (0, 0) []).2 (by decide)

/-- C9: the overlap test reports no intersection exactly when one translated
rectangle is entirely to the left of, right of, above or below the other,
with boundary contact counting as separation; in particular the two boxes
that share only the edge x = 10 are accepted as non-overlapping. -/
theorem overlap_test_separation :
    (∀ (ctx : List BBox) (σ : PosLog) (bb : BBox) (p : Pos) (j : ℕ),
      checkOverlap ctx σ bb p j = false ↔
        rectsDisjoint (translatedRect bb p)
          (translatedRect (ctx.getD j bb0) ((posOf σ j).getD (0, 0)))) ∧
    checkOverlap [⟨0, 0, 10, 10⟩, ⟨0, 0, 10, 10⟩] [(1, (10, 0))]
      ⟨0, 0, 10, 10⟩ (0, 0) 1 = false :=
  ⟨checkOverlap_eq_false_iff, by decide⟩

/-! ## Claim C3: the sheet invariant -/

instance rectsDisjointDec (r1 r2 : BBox) : Decidable (rectsDisjoint r1 r2) := by
  unfold rectsDisjoint
  infer_instance

/-- Translated rectangle of a part as currently recorded in the log. -/
def rectOf (ctx : List BBox) (σ : PosLog) (i : ℕ) : BBox :=
  translatedRect (ctx.getD i bb0) ((posOf σ i).getD (0, 0))

/-- The documented sheet invariant: every accepted part has a committed
position, its translated box lies within the sheet rectangle, and the
translated boxes of accepted entries are pairwise non-overlapping. -/
def SheetInv (ctx : List BBox) (σ : PosLog) (s : Sheet) : Prop :=
  (∀ i ∈ s.parts, (posOf σ i).isSome = true ∧
    0 ≤ (rectOf ctx σ i).min_x ∧ (rectOf ctx σ i).max_x ≤ s.width ∧
    0 ≤ (rectOf ctx σ i).min_y ∧ (rectOf ctx σ i).max_y ≤ s.height) ∧
  s.parts.Pairwise (fun i j => rectsDisjoint (rectOf ctx σ i) (rectOf ctx σ j))

instance sheetInvRelDec (ctx : List BBox) (σ : PosLog) :
    DecidableRel (fun i j => rectsDisjoint (rectOf ctx σ i) (rectOf ctx σ j)) :=
  fun _ _ => inferInstanceAs (Decidable (rectsDisjoint _ _))

instance sheetInvDec (ctx : List BBox) (σ : PosLog) (s : Sheet) :
    Decidable (SheetInv ctx σ s) := by
  unfold SheetInv
  infer_instance

lemma rectsDisjoint_symm {r1 r2 : BBox} (h : rectsDisjoint r1 r2) :
    rectsDisjoint r2 r1 := by
  simp only [rectsDisjoint, ge_iff_le] at h ⊢
  tauto

/-- The parts list used by the C3 counterexample: one 5-by-5 part. -/
def ctxC3 : List BBox := [⟨0, 0, 5, 5⟩]

/-- C3 counterexample: accepting the same part twice re-points its shared
position field, so the earlier accepted entry silently moves and the two
accepted entries of the final sheet coincide and overlap. The invariant held
before the second call, the call itself succeeds (returns true), and the
invariant is false afterwards: add_part does not preserve the invariant for
arbitrary call sequences. -/
theorem sheet_invariant_duplicate_add_cex :
    SheetInv ctxC3 [(0, (0, 0))] ⟨20, 20, [0]⟩ ∧
    addPart ctxC3 ⟨20, 20, [0]⟩ 0 (10, 10) [(0, (0, 0))] =
      (true, ⟨20, 20, [0, 0]⟩, [(0, (10, 10)), (0, (0, 0))]) ∧
    ¬ SheetInv ctxC3 [(0, (10, 10)), (0, (0, 0))] ⟨20, 20, [0, 0]⟩ :=
  ⟨by decide, by decide, by decide⟩

lemma posOf_cons_ne {σ : PosLog} {i j : ℕ} (h : (i == j) = false) (p : Pos) :
    posOf ((i, p) :: σ) j = posOf σ j := by
  unfold posOf
  rw [List.find?_cons_of_neg (p := fun e => e.1 == j) σ (bool_ne_true h)]

lemma addPart_preserves_inv {ctx : List BBox} {σ : PosLog} {s : Sheet}
    {i : ℕ} {p : Pos} (hinv : SheetInv ctx σ s) (hni : i ∉ s.parts) :
    SheetInv ctx (addPart ctx s i p σ).2.2 (addPart ctx s i p σ).2.1 := by
  rcases hc : canPlace ctx σ s (ctx.getD i bb0) p with _ | _
  · have hstep : addPart ctx s i p σ = (false, s, σ) := addPart_neg hc
    rw [hstep]
    exact hinv
  · have hstep : addPart ctx s i p σ =
        (true, { s with parts := s.parts ++ [i] }, (i, p) :: σ) := addPart_pos hc
    rw [hstep]
    have hc2 := (canPlace_iff ctx σ s (ctx.getD i bb0) p).mp hc
    have hrect : ∀ j ∈ s.parts, rectOf ctx ((i, p) :: σ) j = rectOf ctx σ j := by
      intro j hj
      have hij : (i == j) = false := by
        rcases hb : (i == j) with _ | _
        · rfl
        · have hij2 : i = j := by simpa using hb
          rw [hij2] at hni
          exact absurd hj hni
      unfold rectOf
      rw [posOf_cons_ne hij]
    have hrecti : rectOf ctx ((i, p) :: σ) i = translatedRect (ctx.getD i bb0) p := by
      unfold rectOf
      rw [posOf_cons_self]
      rfl
    constructor
    · intro j hj
      rcases List.mem_append.mp hj with hj | hj
      · obtain ⟨h1, h2, h3, h4, h5⟩ := hinv.1 j hj
        have hij : (i == j) = false := by
          rcases hb : (i == j) with _ | _
          · rfl
          · have hij2 : i = j := by simpa using hb
            rw [hij2] at hni
            exact absurd hj hni
        refine ⟨?_, ?_⟩
        · rw [posOf_cons_ne hij]
          exact h1
        · rw [hrect j hj]
          exact ⟨h2, h3, h4, h5⟩
      · simp only [List.mem_singleton] at hj
        subst hj
        refine ⟨by rw [posOf_cons_self]; rfl, ?_⟩
        rw [hrecti]
        exact hc2.1
    · rw [List.pairwise_append]
      refine ⟨List.Pairwise.imp_of_mem (fun ha hb hr => ?_) hinv.2,
        List.pairwise_singleton _ _, ?_⟩
      · rw [hrect _ ha, hrect _ hb]
        exact hr
      · intro a ha b hb
        simp only [List.mem_singleton] at hb
        rw [hb]
        rw [hrect a ha, hrecti]
        have := (checkOverlap_eq_false_iff ctx σ (ctx.getD i bb0) p a).mp
          (hc2.2 a ha)
        exact rectsDisjoint_symm this

/-- The sequence of add_part calls of the amended claim C3, starting from a
fresh sheet and fresh parts. -/
def runCalls (ctx : List BBox) : List (ℕ × Pos) → Sheet → PosLog → Sheet × PosLog
  | [], s, σ => (s, σ)
  | c :: rest, s, σ =>
    let r := addPart ctx s c.1 c.2 σ
    runCalls ctx rest r.2.1 r.2.2

lemma runCalls_parts_sublist (ctx : List BBox) :
    ∀ (calls : List (ℕ × Pos)) (s : Sheet) (σ : PosLog),
      s.parts.Sublist (runCalls ctx calls s σ).1.parts
  | [], _, _ => List.Sublist.refl _
  | c :: rest, s, σ => by
    rcases hc : canPlace ctx σ s (ctx.getD c.1 bb0) c.2 with _ | _
    · have hstep : addPart ctx s c.1 c.2 σ = (false, s, σ) := addPart_neg hc
      simp only [runCalls, hstep]
      exact runCalls_parts_sublist ctx rest s σ
    · have hstep : addPart ctx s c.1 c.2 σ =
          (true, { s with parts := s.parts ++ [c.1] }, (c.1, c.2) :: σ) :=
        addPart_pos hc
      simp only [runCalls, hstep]
      exact (List.sublist_append_left s.parts [c.1]).trans
        (runCalls_parts_sublist ctx rest
          { s with parts := s.parts ++ [c.1] } ((c.1, c.2) :: σ))

lemma runCalls_inv (ctx : List BBox) :
    ∀ (calls : List (ℕ × Pos)) (s : Sheet) (σ : PosLog),
      SheetInv ctx σ s →
      (runCalls ctx calls s σ).1.parts.Nodup →
      SheetInv ctx (runCalls ctx calls s σ).2 (runCalls ctx calls s σ).1
  | [], _, _, hinv, _ => hinv
  | c :: rest, s, σ, hinv, hnd => by
    rcases hc : canPlace ctx σ s (ctx.getD c.1 bb0) c.2 with _ | _
    · have hstep : addPart ctx s c.1 c.2 σ = (false, s, σ) := addPart_neg hc
      simp only [runCalls, hstep] at hnd ⊢
      exact runCalls_inv ctx rest s σ hinv hnd
    · have hstep : addPart ctx s c.1 c.2 σ =
          (true, { s with parts := s.parts ++ [c.1] }, (c.1, c.2) :: σ) :=
        addPart_pos hc
      simp only [runCalls, hstep] at hnd ⊢
      have hsub := runCalls_parts_sublist ctx rest
        { s with parts := s.parts ++ [c.1] } ((c.1, c.2) :: σ)
      have hnd2 : (s.parts ++ [c.1]).Nodup := List.Nodup.sublist hsub hnd
      have hni : c.1 ∉ s.parts := by
        obtain ⟨-, -, hdisj⟩ := List.nodup_append.mp hnd2
        intro hmem
        exact hdisj hmem (List.mem_singleton_self c.1)
      have hpres := addPart_preserves_inv hinv hni (p := c.2)
      rw [hstep] at hpres
      exact runCalls_inv ctx rest _ _ hpres hnd

/-- C3 (amended): the invariant is preserved provided no part is accepted
twice — equivalently, the accepted list of the resulting sheet is
duplicate-free. Failed calls are no-ops, so repeated attempts for the same
part, as the candidate scans of the program perform at every lattice point
until the first success, are allowed; the condition only rules out a second
successful acceptance of an already accepted part. After any such sequence
of add_part calls on a sheet with positive dimensions, every accepted box
lies within bounds and accepted boxes are pairwise non-overlapping, every
call of the sequence preserving the invariant whether it returns true or
false. When a part is accepted twice the invariant can break (see the
counterexample). -/
theorem sheet_invariant_nodup_adds (ctx : List BBox) (w h : ℤ)
    (_hw : 0 < w) (_hh : 0 < h) (calls : List (ℕ × Pos))
    (hnd : (runCalls ctx calls ⟨w, h, []⟩ []).1.parts.Nodup) :
    SheetInv ctx (runCalls ctx calls ⟨w, h, []⟩ []).2
      (runCalls ctx calls ⟨w, h, []⟩ []).1 :=
  runCalls_inv ctx calls ⟨w, h, []⟩ []
    ⟨fun i hi => absurd hi (List.not_mem_nil i), List.Pairwise.nil⟩ hnd

/-- Concrete instance of the amended C3: a call sequence with failed repeat
attempts — part 0 is attempted again after its acceptance and part 1 is
attempted at an overlapping spot before finally being accepted — keeps the
invariant: only acceptances count, and each part is accepted once. -/
theorem sheet_invariant_nodup_adds_witness :
    SheetInv [⟨0, 0, 5, 5⟩, ⟨0, 0, 5, 5⟩]
      (runCalls [⟨0, 0, 5, 5⟩, ⟨0, 0, 5, 5⟩]
        [(0, (0, 0)), (0, (2, 0)), (1, (2, 0)), (1, (10, 0))]
        ⟨20, 20, []⟩ []).2
      (runCalls [⟨0, 0, 5, 5⟩, ⟨0, 0, 5, 5⟩]
        [(0, (0, 0)), (0, (2, 0)), (1, (2, 0)), (1, (10, 0))]
        ⟨20, 20, []⟩ []).1 :=
  sheet_invariant_nodup_adds [⟨0, 0, 5, 5⟩, ⟨0, 0, 5, 5⟩] 20 20
    (by norm_num) (by norm_num)
    [(0, (0, 0)), (0, (2, 0)), (1, (2, 0)), (1, (10, 0))] (by decide)

/-! ## Claim C5: deterministic row-major first-fit scan -/

/-- Strict lexicographic order on lattice points. -/
def posLexLt (a b : ℕ × ℕ) : Prop := a.1 < b.1 ∨ (a.1 = b.1 ∧ a.2 < b.2)

/-- Weak lexicographic order on lattice points. -/
def posLexLe (a b : ℕ × ℕ) : Prop := a.1 < b.1 ∨ (a.1 = b.1 ∧ a.2 ≤ b.2)

lemma range'_pairwise_lt (step : ℕ) (hs : 0 < step) :
    ∀ (n s : ℕ), (List.range' s n step).Pairwise (· < ·)
  | 0, _ => by simp
  | n + 1, s => by
    rw [List.range'_succ]
    refine List.Pairwise.cons (fun b hb => ?_) (range'_pairwise_lt step hs n (s + step))
    obtain ⟨i, _, rfl⟩ := List.mem_range'.mp hb
    omega

lemma grid_pairwise {xs ys : List ℕ} (hx : xs.Pairwise (· < ·))
    (hy : ys.Pairwise (· < ·)) :
    (xs.flatMap (fun x => ys.map (fun y => (x, y)))).Pairwise posLexLt := by
  induction xs with
  | nil => simp
  | cons x xs ih =>
    rw [List.flatMap_cons, List.pairwise_append]
    refine ⟨List.Pairwise.map _ (fun a b hab => Or.inr ⟨rfl, hab⟩) hy,
      ih (List.pairwise_cons.mp hx).2, ?_⟩
    intro a ha b hb
    obtain ⟨y1, _, rfl⟩ := List.mem_map.mp ha
    obtain ⟨x2, hx2, hb2⟩ := List.mem_flatMap.mp hb
    obtain ⟨y2, _, rfl⟩ := List.mem_map.mp hb2
    exact Or.inl ((List.pairwise_cons.mp hx).1 x2 hx2)

lemma latticeCands_pairwise (W H : ℕ) : (latticeCands W H).Pairwise posLexLt :=
  grid_pairwise (range'_pairwise_lt 10 (by norm_num) _ 0)
    (range'_pairwise_lt 10 (by norm_num) _ 0)

lemma find?_min_of_pairwise {α : Type} {R : α → α → Prop} :
    ∀ {l : List α}, l.Pairwise R → ∀ {f : α → Bool} {c : α}, l.find? f = some c →
      ∀ q ∈ l, f q = true → c = q ∨ R c q := by
  intro l
  induction l with
  | nil => intro _ f c hf; simp at hf
  | cons a l ih =>
    intro hp f c hf q hq hfq
    rcases hfa : f a with _ | _
    · rw [List.find?_cons_of_neg _ (bool_ne_true hfa)] at hf
      rcases List.mem_cons.mp hq with rfl | hq2
      · rw [hfq] at hfa; cases hfa
      · exact ih (List.pairwise_cons.mp hp).2 hf q hq2 hfq
    · rw [List.find?_cons_of_pos _ hfa] at hf
      injection hf with hf
      subst hf
      rcases List.mem_cons.mp hq with rfl | hq2
      · exact Or.inl rfl
      · exact Or.inr ((List.pairwise_cons.mp hp).1 q hq2)

/-- C5: both the fitness evaluation and the final replay of the driver run
the same scan (`placeScan` over `latticeCands`, the step-10 row-major
lattice with outer x and inner y); the scan commits the first candidate that
can_place accepts, and that candidate is the lexicographically smallest
feasible point of the lattice. -/
theorem scan_first_fit_lex_min (ctx : List BBox) (W H : ℕ) (i : ℕ)
    (s s2 : Sheet) (σ σ2 : PosLog)
    (h : placeScan ctx i (latticeCands W H) s σ = (true, s2, σ2)) :
    (∀ rest : List ℕ, fitGo ctx W H (i :: rest) s σ = fitGo ctx W H rest s2 σ2) ∧
    (∀ rest : List ℕ, replayGo ctx W H (i :: rest) s σ = replayGo ctx W H rest s2 σ2) ∧
    ∃ c ∈ latticeCands W H,
      canPlace ctx σ s (ctx.getD i bb0) (castPos c) = true ∧
      s2 = { s with parts := s.parts ++ [i] } ∧ σ2 = (i, castPos c) :: σ ∧
      ∀ q ∈ latticeCands W H,
        canPlace ctx σ s (ctx.getD i bb0) (castPos q) = true → posLexLe c q := by
  obtain ⟨c, hc, hs2, hσ2⟩ := placeScan_true h
  refine ⟨fun rest => by simp [fitGo, h], fun rest => by simp [replayGo, h],
    c, List.mem_of_find?_eq_some hc, by simpa using List.find?_some hc, hs2, hσ2, ?_⟩
  intro q hq hcq
  rcases find?_min_of_pairwise (latticeCands_pairwise W H) hc q hq hcq with rfl | hlt
  · exact Or.inr ⟨rfl, le_refl _⟩
  · rcases hlt with h1 | ⟨h1, h2⟩
    · exact Or.inl h1
    · exact Or.inr ⟨h1, le_of_lt h2⟩

/-- Concrete instance of C5: the first placement on an empty 30-by-21 sheet
commits the lattice origin. -/
theorem scan_first_fit_lex_min_witness :
    (∀ rest : List ℕ, fitGo [⟨0, 0, 5, 5⟩] 30 21 (0 :: rest) ⟨30, 21, []⟩ [] =
      fitGo [⟨0, 0, 5, 5⟩] 30 21 rest ⟨30, 21, [0]⟩ [(0, (0, 0))]) ∧
    (∀ rest : List ℕ, replayGo [⟨0, 0, 5, 5⟩] 30 21 (0 :: rest) ⟨30, 21, []⟩ [] =
      replayGo [⟨0, 0, 5, 5⟩] 30 21 rest ⟨30, 21, [0]⟩ [(0, (0, 0))]) ∧
    ∃ c ∈ latticeCands 30 21,
      canPlace [⟨0, 0, 5, 5⟩] [] ⟨30, 21, []⟩ ([⟨0, 0, 5, 5⟩].getD 0 bb0)
        (castPos c) = true ∧
      (⟨30, 21, [0]⟩ : Sheet) = { (⟨30, 21, []⟩ : Sheet) with parts := [] ++ [0] } ∧
      ([(0, (0, 0))] : PosLog) = [(0, castPos c)] ∧
      ∀ q ∈ latticeCands 30 21,
        canPlace [⟨0, 0, 5, 5⟩] [] ⟨30, 21, []⟩ ([⟨0, 0, 5, 5⟩].getD 0 bb0)
          (castPos q) = true → posLexLe c q :=
  scan_first_fit_lex_min [⟨0, 0, 5, 5⟩] 30 21 0 ⟨30, 21, []⟩ ⟨30, 21, [0]⟩
    [] [(0, (0, 0))] (by decide)

/-! ## Claim C4 (amended part): unplaceable parts are silently skipped -/

/-- C4 (amended): a part that fails can_place at every scanned candidate
position is skipped with no state change and no record of any kind: the
scan returns false leaving sheet and log untouched, and the driver replay
simply moves on to the next part. `nest_parts` returns only the sheet, so
such a part is absent from the result rather than surfaced in an
unplaced-parts list. -/
theorem unplaced_part_silently_skipped (ctx : List BBox) (W H : ℕ) (i : ℕ)
    (s : Sheet) (σ : PosLog)
    (h : ∀ c ∈ latticeCands W H,
      canPlace ctx σ s (ctx.getD i bb0) (castPos c) = false) :
    placeScan ctx i (latticeCands W H) s σ = (false, s, σ) ∧
    ∀ rest : List ℕ, replayGo ctx W H (i :: rest) s σ = replayGo ctx W H rest s σ := by
  have hfi : (latticeCands W H).find?
      (fun c => canPlace ctx σ s (ctx.getD i bb0) (castPos c)) = none :=
    List.find?_eq_none.mpr (fun c hc => bool_ne_true (h c hc))
  have hps : placeScan ctx i (latticeCands W H) s σ = (false, s, σ) := by
    rw [placeScan_eq, hfi]
  exact ⟨hps, fun rest => by simp [replayGo, hps]⟩

/-- Concrete instance of the amended C4: a 100-by-100 part on a 30-by-21
sheet fails everywhere and is skipped without a trace. -/
theorem unplaced_part_silently_skipped_witness :
    placeScan [⟨0, 0, 100, 100⟩] 0 (latticeCands 30 21) ⟨30, 21, []⟩ [] =
      (false, ⟨30, 21, []⟩, []) ∧
    ∀ rest : List ℕ, replayGo [⟨0, 0, 100, 100⟩] 30 21 (0 :: rest) ⟨30, 21, []⟩ [] =
      replayGo [⟨0, 0, 100, 100⟩] 30 21 rest ⟨30, 21, []⟩ [] :=
  unplaced_part_silently_skipped [⟨0, 0, 100, 100⟩] 30 21 0 ⟨30, 21, []⟩ []
    (by decide)

/-! ## Claim C8: crossover and mutation preserve permutation validity -/

lemma count_set_add (a x : ℕ) :
    ∀ (l : List ℕ) (i : ℕ), i < l.length →
      (l.set i x).count a + (if l.getD i 0 = a then 1 else 0) =
        l.count a + (if x = a then 1 else 0)
  | [], i, h => by simp at h
  | b :: l, 0, _ => by
    show (x :: l).count a + (if (b :: l).getD 0 0 = a then 1 else 0) =
      (b :: l).count a + (if x = a then 1 else 0)
    simp only [List.count_cons, List.getD_cons_zero, beq_iff_eq]
    split_ifs <;> omega
  | b :: l, i + 1, h => by
    show (b :: l.set i x).count a + (if l.getD i 0 = a then 1 else 0) =
      (b :: l).count a + (if x = a then 1 else 0)
    simp only [List.count_cons, beq_iff_eq]
    have hrec := count_set_add a x l i (by simpa using Nat.lt_of_succ_lt_succ h)
    split_ifs at hrec ⊢ <;> omega

lemma swapAt2_perm (l : List ℕ) (i j : ℕ) (hi : i < l.length)
    (hj : j < l.length) (hij : i ≠ j) : (swapAt2 l i j).Perm l := by
  rw [List.perm_iff_count]
  intro a
  have h1 := count_set_add a (l.getD i 0) (l.set i (l.getD j 0)) j
    (by simpa using hj)
  have h2 := count_set_add a (l.getD j 0) l i hi
  have hgd : (l.set i (l.getD j 0)).getD j 0 = l.getD j 0 := by
    simp only [List.getD_eq_getElem?_getD]
    rw [List.getElem?_set_ne hij]
  rw [hgd] at h1
  show ((l.set i (l.getD j 0)).set j (l.getD i 0)).count a = l.count a
  split_ifs at h1 h2 <;> omega

/-- The crossover child: prefix of the first parent, then the remaining
elements of the second parent, is again a permutation of the index range. -/
lemma crossover_child_perm {p1 p2 : List ℕ} {n : ℕ}
    (h1 : p1.Perm (List.range n)) (h2 : p2.Perm (List.range n)) (pt : ℕ) :
    (p1.take pt ++ p2.filter (fun x => !((p1.take pt).elem x))).Perm
      (List.range n) := by
  refine List.Perm.trans ?_ h2
  have hnd1 : p1.Nodup := h1.symm.nodup (List.nodup_range n)
  have hnd2 : p2.Nodup := h2.symm.nodup (List.nodup_range n)
  have hndt : (p1.take pt).Nodup := (List.take_sublist pt p1).nodup hnd1
  rw [List.perm_iff_count]
  intro a
  rw [List.count_append]
  by_cases hat : a ∈ p1.take pt
  · have hap2 : a ∈ p2 :=
      h2.mem_iff.mpr (h1.mem_iff.mp (List.mem_of_mem_take hat))
    have hcf : (p2.filter (fun x => !((p1.take pt).elem x))).count a = 0 := by
      rw [List.count_eq_zero]
      intro hmem
      have hpr := (List.mem_filter.mp hmem).2
      rw [Bool.not_eq_true', ← Bool.not_eq_true] at hpr
      exact hpr (List.elem_eq_true_of_mem hat)
    rw [List.count_eq_one_of_mem hndt hat, hcf,
      List.count_eq_one_of_mem hnd2 hap2]
  · have hct : (p1.take pt).count a = 0 := List.count_eq_zero.mpr hat
    rw [hct]
    by_cases hap2 : a ∈ p2
    · have haf : a ∈ p2.filter (fun x => !((p1.take pt).elem x)) :=
        List.mem_filter.mpr ⟨hap2, by
          simp only [Bool.not_eq_true']
          rcases he : (p1.take pt).elem a with _ | _
          · rfl
          · exact absurd (List.elem_iff.mp he) hat⟩
      rw [List.count_eq_one_of_mem (hnd2.filter _) haf,
        List.count_eq_one_of_mem hnd2 hap2]
    · rw [List.count_eq_zero.mpr hap2, List.count_eq_zero.mpr
        (fun hmem => hap2 (List.mem_filter.mp hmem).1)]

lemma getD_range {n m : ℕ} (h : m < n) : (List.range n).getD m default = m := by
  rw [List.getD_eq_getElem?_getD, List.getElem?_range h]
  rfl

lemma sample2_spec {α : Type} [Inhabited α] {l : List α} {g g2 : Rng} {a b : α}
    (h : sample2 l g = some ((a, b), g2)) :
    ∃ i j, i < l.length ∧ j < l.length ∧ i ≠ j ∧
      a = l.getD i default ∧ b = l.getD j default := by
  simp only [sample2] at h
  split at h
  · cases h
  next hlen =>
    push_neg at hlen
    simp only [Option.some.injEq, Prod.mk.injEq] at h
    obtain ⟨⟨ha, hb⟩, -⟩ := h
    have hi0 : (draw g).1 % l.length < l.length := Nat.mod_lt _ (by omega)
    have hj0 : (draw (draw g).2).1 % (l.length - 1) < l.length - 1 :=
      Nat.mod_lt _ (by omega)
    by_cases hij : (draw g).1 % l.length ≤ (draw (draw g).2).1 % (l.length - 1)
    · rw [if_pos hij] at hb
      exact ⟨_, _, hi0, by omega, by omega, ha.symm, hb.symm⟩
    · rw [if_neg hij] at hb
      exact ⟨_, _, hi0, by omega, by omega, ha.symm, hb.symm⟩

lemma mutate_perm {n : ℕ} {ord res : List ℕ} {g g2 : Rng}
    (hp : ord.Perm (List.range n)) (h : mutate ord g = some (res, g2)) :
    res.Perm (List.range n) := by
  simp only [mutate] at h
  rcases hb : (randBool g).1 with _ | _
  · rw [hb] at h
    simp only [Bool.false_eq_true, if_false, Option.some.injEq,
      Prod.mk.injEq] at h
    rw [← h.1]
    exact hp
  · rw [hb] at h
    simp only [if_true] at h
    rcases hs : sample2 (List.range ord.length) (randBool g).2
      with _ | ⟨⟨⟨i, j⟩, g3⟩⟩
    · rw [hs] at h; cases h
    · rw [hs] at h
      simp only [Option.some.injEq, Prod.mk.injEq] at h
      obtain ⟨i2, j2, hi2, hj2, hij2, hieq, hjeq⟩ := sample2_spec hs
      rw [List.length_range] at hi2 hj2
      rw [getD_range hi2] at hieq
      rw [getD_range hj2] at hjeq
      subst hieq hjeq
      rw [← h.1]
      exact (swapAt2_perm ord i j hi2 hj2 hij2).trans hp

lemma crossover_some {p1 p2 ch : List ℕ} {g g2 : Rng}
    (h : crossover p1 p2 g = some (ch, g2)) :
    ∃ pt, ch = p1.take pt ++ p2.filter (fun x => !((p1.take pt).elem x)) := by
  simp only [crossover] at h
  rcases hr : randIntNat 1 (p1.length - 1) g with _ | ⟨⟨pt, g1⟩⟩
  · rw [hr] at h; cases h
  · rw [hr] at h
    simp only [Option.some.injEq, Prod.mk.injEq] at h
    exact ⟨pt, h.1.symm⟩

/-- C8: for parents that are valid permutations of the index range, every
child produced by crossover followed by mutation (for every random cut point
and every random swap) is again a valid permutation: no index is duplicated
or lost in any generation. -/
theorem crossover_mutate_preserves_perm {n : ℕ} {p1 p2 ch mu : List ℕ}
    {g g1 gm g2 : Rng}
    (hp1 : p1.Perm (List.range n)) (hp2 : p2.Perm (List.range n))
    (hc : crossover p1 p2 g = some (ch, g1))
    (hm : mutate ch gm = some (mu, g2)) :
    mu.Perm (List.range n) := by
  obtain ⟨pt, rfl⟩ := crossover_some hc
  exact mutate_perm (crossover_child_perm hp1 hp2 pt) hm

/-- Concrete instance of C8: crossing the permutations 012 and 210 of range 3
under the all-zero oracle and mutating yields a permutation of range 3. -/
theorem crossover_mutate_preserves_perm_witness :
    ([0, 2, 1] : List ℕ).Perm (List.range 3) :=
  crossover_mutate_preserves_perm (by decide) (by decide)
    (rfl : crossover [0, 1, 2] [2, 1, 0] rng0 = some ([0, 2, 1], rng0))
    (rfl : mutate [0, 2, 1] rng0 = some ([0, 2, 1], rng0))

/-! ## Claim C1: what genetic_algorithm returns -/

lemma fitLe_refl (a : Option ℕ) : fitLe a a := by
  rcases a with _ | a <;> simp [fitLe]

lemma fitLe_total (a b : Option ℕ) : fitLe a b ∨ fitLe b a := by
  rcases a with _ | a <;> rcases b with _ | b <;> simp [fitLe] <;> omega

lemma fitLe_trans {a b c : Option ℕ} (h1 : fitLe a b) (h2 : fitLe b c) :
    fitLe a c := by
  rcases a with _ | a <;> rcases b with _ | b <;> rcases c with _ | c <;>
    simp [fitLe] at * <;> omega

instance keyLeTotal : IsTotal (List ℕ × Option ℕ) keyLe :=
  ⟨fun p q => fitLe_total p.2 q.2⟩

instance keyLeTrans : IsTrans (List ℕ × Option ℕ) keyLe :=
  ⟨fun _ _ _ h1 h2 => fitLe_trans h1 h2⟩

lemma sorted_head_min (keys : List (List ℕ × Option ℕ)) :
    ∀ q ∈ List.insertionSort keyLe keys,
      keyLe ((List.insertionSort keyLe keys).getD 0 ([], none)) q := by
  intro q hq
  rcases hsl : List.insertionSort keyLe keys with _ | ⟨p, t⟩
  · rw [hsl] at hq; cases hq
  · have hsorted := List.sorted_insertionSort keyLe keys
    rw [hsl] at hsorted hq
    rcases List.mem_cons.mp hq with rfl | hq2
    · exact fitLe_refl _
    · exact List.rel_of_pairwise_cons hsorted hq2

lemma computeKeys_fst (ctx : List BBox) (W H : ℕ) :
    ∀ (pop : List (List ℕ)) (σ : PosLog),
      (computeKeys ctx W H pop σ).1 = pop.map (fun o => (o, fitVal ctx W H o))
  | [], _ => rfl
  | o :: rest, σ => by
    simp only [computeKeys, List.map_cons]
    rw [computeKeys_fst ctx W H rest (fitness ctx W H o σ).2, fitness_fst]

lemma sorted_key_eq_fitVal {ctx : List BBox} {W H : ℕ} {pop : List (List ℕ)}
    {σ : PosLog} {q : List ℕ × Option ℕ}
    (hq : q ∈ List.insertionSort keyLe (computeKeys ctx W H pop σ).1) :
    q.2 = fitVal ctx W H q.1 := by
  have hq2 : q ∈ (computeKeys ctx W H pop σ).1 :=
    (List.perm_insertionSort keyLe _).mem_iff.mp hq
  rw [computeKeys_fst] at hq2
  obtain ⟨o, _, rfl⟩ := List.mem_map.mp hq2
  rfl

/-- C1 (amended): when the generation loop ends by early convergence the
returned individual is the head of the population sorted ascending by
fitness, and no individual of that final population has strictly lower
fitness. When the loop instead exhausts the generation budget, the final
population is the last reproduced generation, which is never sorted, and the
returned first element need not be fitness-minimal (see the counterexample). -/
theorem ga_early_convergence_returns_min (ctx : List BBox) (W H psize : ℕ) :
    ∀ (gens : ℕ) (pop : List (List ℕ)) (σ : PosLog) (g : Rng) (out : GaOut),
      gaLoopAux ctx W H psize gens pop σ g = some out → out.early = true →
      ∀ ind ∈ out.pop,
        fitLe (fitVal ctx W H (out.pop.getD 0 [])) (fitVal ctx W H ind)
  | 0, pop, σ, g, out, h, he => by
    simp only [gaLoopAux, Option.some.injEq] at h
    rw [← h] at he
    cases he
  | gens + 1, pop, σ, g, out, h, he => by
    simp only [gaLoopAux] at h
    split at h
    next hbest =>
      simp only [Option.some.injEq] at h
      subst h
      intro ind hind
      simp only [sortPop] at hind ⊢
      obtain ⟨q, hq, hq1⟩ := List.mem_map.mp hind
      rcases hsl : List.insertionSort keyLe
          (computeKeys ctx W H pop σ).1 with _ | ⟨p, t⟩
      · rw [hsl] at hq; cases hq
      · have hmin := sorted_head_min (computeKeys ctx W H pop σ).1 q hq
        have hkq := sorted_key_eq_fitVal hq
        have hkp : p.2 = fitVal ctx W H p.1 :=
          sorted_key_eq_fitVal (hsl ▸ List.mem_cons_self p t)
        rw [hsl] at hmin
        have hgd : ((p :: t).map (fun r => r.1)).getD 0 [] = p.1 := rfl
        rw [hgd]
        rw [← hkp, ← hq1, ← hkq]
        exact hmin
    next hbest =>
      rcases hrep : reproduce
          ((sortPop (computeKeys ctx W H pop σ).1).take 10) (psize / 2) g
        with _ | ⟨⟨nextPop, g1⟩⟩
      · rw [hrep] at h; cases h
      · rw [hrep] at h
        exact ga_early_convergence_returns_min ctx W H psize gens nextPop
          _ g1 out h he

/-- Concrete instance of the amended C1: a converging two-individual run over
one placeable part; the returned head is fitness-minimal. -/
theorem ga_early_convergence_returns_min_witness :
    fitLe (fitVal [⟨0, 0, 5, 5⟩] 30 21 (([[0], [0]] : List (List ℕ)).getD 0 []))
      (fitVal [⟨0, 0, 5, 5⟩] 30 21 [0]) :=
  ga_early_convergence_returns_min [⟨0, 0, 5, 5⟩] 30 21 2 1 [[0], [0]] [] rng0
    ⟨[[0], [0]], true, [(0, (0, 0)), (0, (0, 0)), (0, (0, 0))], rng0⟩ rfl rfl
    [0] (by decide)

/-- The two-part instance of the C1 counterexample: the wide part 0 blocks
the sheet when placed first, so the order 01 has infinite fitness while the
order 10 places both parts. -/
def ctxC1 : List BBox := [⟨0, 0, 30, 11⟩, ⟨0, 0, 10, 9⟩]

/-- The oracle stream of the C1 counterexample: the single 1 makes the second
child of the only reproduction round mutate (swapping its two entries). -/
def rngC1 : Rng := fun i => [0, 0, 0, 0, 0, 0, 0, 0, 0, 1].getD i 0

/-- C1 counterexample: with population size 2 and a one-generation budget on
`ctxC1`, the run ends by exhausting the budget; the final population is the
unsorted pair of orders 01 and 10, the algorithm returns its first element
01 with infinite fitness, yet the member 10 of the final population has
strictly lower fitness 2. The returned individual is not the best of the
final population. -/
theorem ga_budget_exhaustion_not_sorted_cex :
    (gaLoopAux ctxC1 30 21 2 1 (initPop 2 2 rngC1).1 []
        (initPop 2 2 rngC1).2).map (fun o => (o.pop, o.early)) =
      some ([[0, 1], [1, 0]], false) ∧
    (geneticAlgorithm ctxC1 30 21 2 1 [] rngC1).map (fun r => r.1) =
      some [0, 1] ∧
    fitVal ctxC1 30 21 [0, 1] = none ∧
    fitVal ctxC1 30 21 [1, 0] = some 2 ∧
    ¬ fitLe (fitVal ctxC1 30 21 [0, 1]) (fitVal ctxC1 30 21 [1, 0]) :=
  ⟨rfl, rfl, by decide, by decide, by decide⟩

/-! ### Evaluation helpers for concrete runs over constant populations -/

lemma insertionSort_keyLe_replicate (p : List ℕ × Option ℕ) :
    ∀ k, List.insertionSort keyLe (List.replicate k p) = List.replicate k p
  | 0 => rfl
  | k + 1 => by
    rw [List.replicate_succ]
    simp only [List.insertionSort]
    rw [insertionSort_keyLe_replicate p k]
    cases k with
    | zero => rfl
    | succ k2 =>
      rw [List.replicate_succ]
      simp only [List.orderedInsert]
      rw [if_pos (show keyLe p p from fitLe_refl p.2)]

lemma sortPop_replicate (p : List ℕ × Option ℕ) (k : ℕ) :
    sortPop (List.replicate k p) = List.replicate k p.1 := by
  unfold sortPop
  rw [insertionSort_keyLe_replicate, List.map_replicate]

/-! ## Claim C10: the one-part unplaceable run crashes in crossover -/

/-- The one-part instance of C10: a 100-by-100 part that fits nowhere on a
30-by-21 sheet, so its fitness is always the infinite sentinel. -/
def ctxC10 : List BBox := [⟨0, 0, 100, 100⟩]

/-- The cut point range `[1, len - 1]` of crossover is empty whenever the
parents have fewer than two entries, so `random.randint` raises. -/
lemma crossover_len1 {p1 p2 : List ℕ} {g : Rng} (h : p1.length = 1) :
    crossover p1 p2 g = none := by
  simp only [crossover, h]
  rfl

lemma crossover_zero (q : List ℕ) (g : Rng) : crossover [0] q g = none := rfl

lemma initPop_one : ∀ (p : ℕ) (g : Rng), (initPop p 1 g).1 = List.replicate p [0]
  | 0, _ => rfl
  | p + 1, g => by
    simp only [initPop, List.replicate_succ]
    rw [show (samplePerm 1 g).1 = [0] by
      simp [samplePerm, samplePermGo, Nat.mod_one]]
    rw [initPop_one p _]

lemma getD_replicate10 {m : ℕ} (h : m < 10) :
    (List.replicate 10 ([0] : List ℕ)).getD m default = [0] := by
  rw [List.getD_eq_getElem?_getD, List.getElem?_replicate_of_lt h]
  rfl

lemma sample2_replicate10 (g : Rng) :
    sample2 (List.replicate 10 ([0] : List ℕ)) g =
      some ((([0] : List ℕ), ([0] : List ℕ)), (draw (draw g).2).2) := by
  simp only [sample2, List.length_replicate]
  rw [if_neg (by norm_num)]
  have h9 : (draw (draw g).2).1 % (10 - 1) < 10 - 1 :=
    Nat.mod_lt _ (by norm_num)
  have hj : (if (draw g).1 % 10 ≤ (draw (draw g).2).1 % (10 - 1) then
      (draw (draw g).2).1 % (10 - 1) + 1 else (draw (draw g).2).1 % (10 - 1)) < 10 := by
    split <;> omega
  rw [getD_replicate10 (Nat.mod_lt _ (by norm_num)), getD_replicate10 hj]

lemma reproduce_c10 (c : ℕ) (g : Rng) :
    reproduce (List.replicate 10 [0]) (c + 1) g = none := by
  simp only [reproduce, sample2_replicate10, crossover_zero]

lemma fitness_c10 (σ : PosLog) : fitness ctxC10 30 21 [0] σ = (none, σ) := rfl

lemma computeKeys_c10 : ∀ (k : ℕ) (σ : PosLog),
    computeKeys ctxC10 30 21 (List.replicate k [0]) σ =
      (List.replicate k ([0], (none : Option ℕ)), σ)
  | 0, _ => rfl
  | k + 1, σ => by
    rw [List.replicate_succ]
    simp only [computeKeys, fitness_c10]
    rw [computeKeys_c10 k σ, List.replicate_succ]

lemma gaLoopAux_c10 (gens : ℕ) (σ : PosLog) (g : Rng) :
    gaLoopAux ctxC10 30 21 50 (gens + 1) (List.replicate 50 [0]) σ g = none := by
  simp only [gaLoopAux]
  rw [computeKeys_c10 50 σ]
  dsimp only
  rw [sortPop_replicate]
  dsimp only
  have hfit : fitness ctxC10 30 21 ((List.replicate 50 [0]).getD 0 []) σ =
      (none, σ) := rfl
  rw [hfit]
  rw [if_neg (by simp)]
  have htake : (List.replicate 50 ([0] : List ℕ)).take 10 =
      List.replicate 10 [0] := rfl
  rw [htake]
  have hdiv : (50 : ℕ) / 2 = 24 + 1 := rfl
  rw [hdiv, reproduce_c10 24 g]

lemma geneticAlgorithm_c10 (σ : PosLog) (g : Rng) :
    geneticAlgorithm ctxC10 30 21 50 100 σ g = none := by
  simp only [geneticAlgorithm]
  have hip : (initPop 50 ctxC10.length g).1 = List.replicate 50 [0] :=
    initPop_one 50 g
  rw [hip]
  have h100 : (100 : ℕ) = 99 + 1 := rfl
  rw [h100, gaLoopAux_c10 99 σ _]
  rfl

lemma nestParts_c10 (σ : PosLog) (g : Rng) :
    nestParts ctxC10 30 21 σ g = none := by
  unfold nestParts
  rw [geneticAlgorithm_c10 σ g]
  rfl

/-- C10: the crossover cut point is drawn from the empty range `[1, 0]` when
a parent has a single entry, so crossover raises for every oracle; and for
the one-part instance whose part fits nowhere on the step-10 lattice
(fitness stays infinite, early termination never fires), the whole
`nest_parts` run fails with that error for every oracle and every incoming
state, instead of reporting the part unplaced. -/
theorem crossover_empty_range_and_nest_failure :
    (∀ (p1 p2 : List ℕ) (g : Rng), p1.length = 1 → crossover p1 p2 g = none) ∧
    (∀ (σ : PosLog) (g : Rng), nestParts ctxC10 30 21 σ g = none) :=
  ⟨fun _ _ _ h => crossover_len1 h, fun σ g => nestParts_c10 σ g⟩

/-- Concrete instance of C10 under the all-zero oracle. -/
theorem crossover_empty_range_and_nest_failure_witness :
    crossover [5] [7] rng0 = none ∧ nestParts ctxC10 30 21 [] rng0 = none :=
  ⟨crossover_empty_range_and_nest_failure.1 [5] [7] rng0 rfl,
   crossover_empty_range_and_nest_failure.2 [] rng0⟩

/-! ## Claim C7: when the position field is assigned -/

lemma fitGo_log (ctx : List BBox) (W H : ℕ) :
    ∀ (rest : List ℕ) (s : Sheet) (σ : PosLog),
      ∃ Δ, (fitGo ctx W H rest s σ).2 = Δ ++ σ ∧ (∀ e ∈ Δ, e.1 ∈ rest) ∧
        (rest.Nodup → (Δ.map Prod.fst).Nodup)
  | [], _, _ => ⟨[], rfl, by simp, by simp⟩
  | i :: rest, s, σ => by
    rcases hf : (latticeCands W H).find?
        (fun c => canPlace ctx σ s (ctx.getD i bb0) (castPos c)) with _ | c
    · have hps : placeScan ctx i (latticeCands W H) s σ = (false, s, σ) := by
        rw [placeScan_eq, hf]
      refine ⟨[], ?_, by simp, by simp⟩
      simp [fitGo, hps]
    · have hps : placeScan ctx i (latticeCands W H) s σ =
          (true, { s with parts := s.parts ++ [i] }, (i, castPos c) :: σ) := by
        rw [placeScan_eq, hf]
      obtain ⟨Δr, hΔ, hmem, hnd⟩ := fitGo_log ctx W H rest
        { s with parts := s.parts ++ [i] } ((i, castPos c) :: σ)
      refine ⟨Δr ++ [(i, castPos c)], ?_, ?_, ?_⟩
      · have hstep : (fitGo ctx W H (i :: rest) s σ).2 =
            (fitGo ctx W H rest { s with parts := s.parts ++ [i] }
              ((i, castPos c) :: σ)).2 := by
          simp [fitGo, hps]
        rw [hstep, hΔ, List.append_assoc, List.singleton_append]
      · intro e he
        rcases List.mem_append.mp he with he | he
        · exact List.mem_cons_of_mem i (hmem e he)
        · simp only [List.mem_singleton] at he
          rw [he]
          exact List.mem_cons_self i rest
      · intro hndo
        obtain ⟨hni, hndr⟩ := List.nodup_cons.mp hndo
        rw [List.map_append]
        refine List.nodup_append.mpr ⟨hnd hndr, by simp, ?_⟩
        intro a ha hai
        simp only [List.map_cons, List.map_nil, List.mem_singleton] at hai
        obtain ⟨e, he, rfl⟩ := List.mem_map.mp ha
        exact hni (hai ▸ hmem e he)

/-- C7 (amended): the position field is assigned on every successful
placement, in particular once per placed part inside every fitness
evaluation of the optimizer and once more in the final replay, so over a
whole run it is reassigned many times (see the counterexample). What does
hold is the per-evaluation discipline: one fitness evaluation of a
duplicate-free order prepends to the log at most one assignment per part,
each for a part of the evaluated order. -/
theorem fitness_eval_assigns_once_per_eval (ctx : List BBox) (W H : ℕ)
    (order : List ℕ) (σ : PosLog) (hnd : order.Nodup) :
    ∃ Δ, (fitness ctx W H order σ).2 = Δ ++ σ ∧ (∀ e ∈ Δ, e.1 ∈ order) ∧
      (Δ.map Prod.fst).Nodup := by
  obtain ⟨Δ, h1, h2, h3⟩ := fitGo_log ctx W H order ⟨(W : ℤ), (H : ℤ), []⟩ σ
  exact ⟨Δ, h1, h2, h3 hnd⟩

/-- The one-part instance of the C7 run: a placeable 5-by-5 part. -/
def ctxC7 : List BBox := [⟨0, 0, 5, 5⟩]

/-- Concrete instance of the amended C7. -/
theorem fitness_eval_assigns_once_per_eval_witness :
    ∃ Δ, (fitness ctxC7 30 21 [0] []).2 = Δ ++ [] ∧ (∀ e ∈ Δ, e.1 ∈ [0]) ∧
      (Δ.map Prod.fst).Nodup :=
  fitness_eval_assigns_once_per_eval ctxC7 30 21 [0] [] (by decide)

lemma fitness_c7 (σ : PosLog) :
    fitness ctxC7 30 21 [0] σ = (some 1, ((0 : ℕ), ((0 : ℤ), (0 : ℤ))) :: σ) := rfl

lemma computeKeys_c7 : ∀ (k : ℕ) (σ : PosLog),
    computeKeys ctxC7 30 21 (List.replicate k [0]) σ =
      (List.replicate k ([0], some 1),
        List.replicate k ((0 : ℕ), ((0 : ℤ), (0 : ℤ))) ++ σ)
  | 0, _ => rfl
  | k + 1, σ => by
    have hlog : List.replicate (k + 1) ((0 : ℕ), ((0 : ℤ), (0 : ℤ))) ++ σ =
        List.replicate k ((0 : ℕ), ((0 : ℤ), (0 : ℤ))) ++
          (((0 : ℕ), ((0 : ℤ), (0 : ℤ))) :: σ) := by
      rw [List.replicate_succ', List.append_assoc, List.singleton_append]
    rw [List.replicate_succ]
    simp only [computeKeys, fitness_c7]
    rw [computeKeys_c7 k _, hlog, List.replicate_succ]

lemma gaLoopAux_c7 (gens : ℕ) (σ : PosLog) (g : Rng) :
    gaLoopAux ctxC7 30 21 50 (gens + 1) (List.replicate 50 [0]) σ g =
      some ⟨List.replicate 50 [0], true,
        ((0 : ℕ), ((0 : ℤ), (0 : ℤ))) ::
          (List.replicate 50 ((0 : ℕ), ((0 : ℤ), (0 : ℤ))) ++ σ), g⟩ := by
  simp only [gaLoopAux]
  rw [computeKeys_c7 50 σ]
  dsimp only
  rw [sortPop_replicate]
  dsimp only
  have hgd : (List.replicate 50 ([0] : List ℕ)).getD 0 [] = [0] := rfl
  rw [hgd, fitness_c7]
  dsimp only
  rw [if_pos (show (some 1 : Option ℕ) = some ctxC7.length from rfl)]

/-- C7 counterexample: one successful end-to-end `nest_parts` run over a
single placeable part under the all-zero oracle. The optimizer converges in
the first generation, yet the position of part 0 has been assigned 52 times
(once per fitness evaluation: 50 sort keys plus the convergence re-check,
and once more by the final replay), not exactly once. -/
theorem position_reassigned_across_evals_cex :
    (nestParts ctxC7 30 21 [] rng0).map
        (fun r => (r.1.parts, r.2.countP (fun e => e.1 == 0))) =
      some ([0], 52) := by
  simp only [nestParts, geneticAlgorithm]
  have hip1 : (initPop 50 ctxC7.length rng0).1 = List.replicate 50 [0] :=
    initPop_one 50 rng0
  have hip2 : (initPop 50 ctxC7.length rng0).2 = rng0 := rfl
  rw [hip1, hip2]
  rw [show (100 : ℕ) = 99 + 1 from rfl, gaLoopAux_c7 99 [] rng0]
  rfl

/-! ## Claim C4: what happens to unplaced parts in nest_parts -/

/-- The two-part instance of the C4 run: part 0 placeable, part 1 a
100-by-100 part that fits nowhere on the 30-by-21 sheet. -/
def ctxC4 : List BBox := [⟨0, 0, 5, 5⟩, ⟨0, 0, 100, 100⟩]

/-- The log entry produced by every trial placement of part 0 at the
origin. -/
def eC4 : ℕ × Pos := (0, (0, 0))

lemma fitness_c4 (σ : PosLog) :
    fitness ctxC4 30 21 [0, 1] σ = (none, eC4 :: σ) := rfl

lemma computeKeys_c4 : ∀ (k : ℕ) (σ : PosLog),
    computeKeys ctxC4 30 21 (List.replicate k [0, 1]) σ =
      (List.replicate k ([0, 1], (none : Option ℕ)),
        List.replicate k eC4 ++ σ)
  | 0, _ => rfl
  | k + 1, σ => by
    have hlog : List.replicate (k + 1) eC4 ++ σ =
        List.replicate k eC4 ++ (eC4 :: σ) := by
      rw [List.replicate_succ', List.append_assoc, List.singleton_append]
    rw [List.replicate_succ]
    simp only [computeKeys, fitness_c4]
    rw [computeKeys_c4 k _, hlog, List.replicate_succ]

lemma reproduce_c4 : ∀ (c : ℕ),
    reproduce (List.replicate 10 [0, 1]) c rng0 =
      some (List.replicate (2 * c) [0, 1], rng0)
  | 0 => rfl
  | c + 1 => by
    have hstep : reproduce (List.replicate 10 [0, 1]) (c + 1) rng0 =
        (reproduce (List.replicate 10 [0, 1]) c rng0).map
          (fun r => ([0, 1] :: [0, 1] :: r.1, r.2)) := rfl
    rw [hstep, reproduce_c4 c]
    have harith : 2 * (c + 1) = (2 * c) + 1 + 1 := by omega
    rw [harith, List.replicate_succ, List.replicate_succ]
    rfl

lemma gaLoopAux_c4_step (gens : ℕ) (σ : PosLog) :
    gaLoopAux ctxC4 30 21 50 (gens + 1) (List.replicate 50 [0, 1]) σ rng0 =
      gaLoopAux ctxC4 30 21 50 gens (List.replicate 50 [0, 1])
        (eC4 :: (List.replicate 50 eC4 ++ σ)) rng0 := by
  simp only [gaLoopAux]
  rw [computeKeys_c4 50 σ]
  dsimp only
  rw [sortPop_replicate]
  dsimp only
  have hgd : (List.replicate 50 ([0, 1] : List ℕ)).getD 0 [] = [0, 1] := rfl
  rw [hgd, fitness_c4]
  rw [if_neg (by simp)]
  have htake : (List.replicate 50 ([0, 1] : List ℕ)).take 10 =
      List.replicate 10 [0, 1] := rfl
  rw [htake]
  have hdiv : (50 : ℕ) / 2 = 25 := rfl
  rw [hdiv]
  have hrep : reproduce (List.replicate 10 [0, 1]) 25 rng0 =
      some (List.replicate 50 [0, 1], rng0) := reproduce_c4 25
  rw [hrep]

lemma gaC4_inv : ∀ (gens : ℕ) (σ : PosLog), ∃ σ2,
    gaLoopAux ctxC4 30 21 50 gens (List.replicate 50 [0, 1]) σ rng0 =
      some ⟨List.replicate 50 [0, 1], false, σ2, rng0⟩
  | 0, σ => ⟨σ, rfl⟩
  | gens + 1, σ => by
    obtain ⟨σ2, ih⟩ := gaC4_inv gens (eC4 :: (List.replicate 50 eC4 ++ σ))
    exact ⟨σ2, by rw [gaLoopAux_c4_step, ih]⟩

lemma replayGo_c4 (σ : PosLog) :
    replayGo ctxC4 30 21 [0, 1] ⟨30, 21, []⟩ σ =
      (⟨30, 21, [0]⟩, (0, (0, 0)) :: σ) := rfl

/-- C4 counterexample/corrected: a two-part run in which part 1 can never be
placed. The entire observable result of `nest_parts` is the sheet containing
only part 0 (plus the shared position log): part 1 appears in no component
of the output — there is no unplaced-parts result of any kind, the part is
silently dropped. -/
theorem nest_parts_drops_unplaced_cex :
    ctxC4.length = 2 ∧
    (nestParts ctxC4 30 21 [] rng0).map (fun r => r.1) = some ⟨30, 21, [0]⟩ := by
  refine ⟨rfl, ?_⟩
  obtain ⟨σ2, hga⟩ := gaC4_inv 100 []
  simp only [nestParts, geneticAlgorithm]
  have hip1 : (initPop 50 ctxC4.length rng0).1 = List.replicate 50 [0, 1] := rfl
  have hip2 : (initPop 50 ctxC4.length rng0).2 = rng0 := rfl
  rw [hip1, hip2, hga]
  show some ((replayGo ctxC4 30 21 [0, 1] ⟨30, 21, []⟩ σ2).1) =
    some (⟨30, 21, [0]⟩ : Sheet)
  rw [replayGo_c4 σ2]

end Dxfnest
